import Mathlib

/-!
Verification of the DID contract indexer (`src/DIDIndexer.ts`, `src/index.ts`,
`src/types.ts`).

The pure data transformations of the indexer are embedded directly:

* `getStatistics`, `buildSubdomainRelations`, `createBatches`,
  `createBatchesFromArray`, `concurrentMap`, `executeMulticallWithRetry`,
  `multicallGetDetails` mirror the methods of `class DIDIndexer`;
* `mkConfig` mirrors the configuration assembly in `src/index.ts`.

Effectful collaborators (the JSON-RPC provider, ethers' ABI encoder/decoder)
are modelled as injected functions, as the spec treats them: the aggregated
call is an oracle `List call → Except ε (List result)`, the retrying caller's
network attempts are an oracle indexed by the attempt number.

The `for (let i = 0; i < n; i += step)` loops of the source are embedded as
fuel-indexed loops: one unit of fuel is one loop iteration, and a result of
`none` for every fuel value means the JavaScript loop never finishes (the
loop variable is never advanced past the bound).  For any step ≥ 1 a fuel of
`n` iterations is enough, and the wrapper definitions pass exactly that.
-/

namespace DIDIndexer

/-- `DomainData` from `src/types.ts`: one indexed registry record. -/
structure DomainData where
  id : String
  name : String
  did : String
  note : String
  allowSubdomain : Bool
  owner : String
  subdomains : List String
deriving Repr, DecidableEq

/-- `ContractMetadata` from `src/types.ts`: decoded `getMetadata` payload. -/
structure ContractMetadata where
  domain : String
  did : String
  notes : String
  allowSubdomain : Bool
deriving Repr, DecidableEq

/-- `IndexerConfig` from `src/types.ts`.  The numeric fields come from
`parseInt` in `src/index.ts`, hence integers (possibly zero or negative). -/
structure IndexerConfig where
  rpcUrl : String
  contractAddress : String
  batchSize : Int
  concurrency : Int
  retryAttempts : Int
deriving Repr, DecidableEq

/-- The only way `main` in `src/index.ts` refuses to run: a missing
`RPC_URL` or `CONTRACT_ADDRESS` environment variable (`process.exit(1)`). -/
inductive ConfigFailure where
  | missingEnv
deriving Repr, DecidableEq

/-- Configuration assembly in `main` (`src/index.ts` lines 16-33): abort when
`RPC_URL` or `CONTRACT_ADDRESS` is absent, otherwise take the numeric fields
from the environment with defaults 500 / 5 / 3.  No range check of any kind
is performed on `batchSize`, `concurrency` or `retryAttempts`. -/
def mkConfig (rpcUrl contractAddress : Option String)
    (batchSize concurrency retryAttempts : Option Int) :
    Except ConfigFailure IndexerConfig :=
  match rpcUrl, contractAddress with
  | some r, some a =>
      .ok { rpcUrl := r, contractAddress := a,
            batchSize := batchSize.getD 500,
            concurrency := concurrency.getD 5,
            retryAttempts := retryAttempts.getD 3 }
  | _, _ => .error .missingEnv

/-- The statistics record returned by `DIDIndexer.getStatistics`. -/
structure Statistics where
  total : Nat
  topLevel : Nat
  subdomains : Nat
  withDID : Nat
  allowingSubdomains : Nat
deriving Repr, DecidableEq

/-- `name.includes('.')` for the one-character pattern `'.'`: the name
contains a dot. -/
def containsDot (s : String) : Bool :=
  s.toList.contains '.'

/-- `DIDIndexer.getStatistics` (source lines 318-332).  `d.did && d.did !== ''`
on a string is truthy exactly when the string is non-empty. -/
def getStatistics (domains : List DomainData) : Statistics :=
  { total := domains.length
    topLevel := (domains.filter fun d => !containsDot d.name).length
    subdomains := (domains.filter fun d => containsDot d.name).length
    withDID := (domains.filter fun d => d.did != "").length
    allowingSubdomains := (domains.filter fun d => d.allowSubdomain).length }

/-- Helper for `splitDot`: the accumulator holds the characters of the
current segment in reverse. -/
def splitDotAux : List Char → List Char → List String
  | [], acc => [⟨acc.reverse⟩]
  | ch :: cs, acc =>
      if ch = '.' then ⟨acc.reverse⟩ :: splitDotAux cs []
      else splitDotAux cs (ch :: acc)

/-- `name.split('.')` from `buildSubdomainRelations` (source line 249):
JavaScript single-character split, so `"" ↦ [""]`, `"a.b" ↦ ["a","b"]`,
`"a..b" ↦ ["a","","b"]`. -/
def splitDot (s : String) : List String :=
  splitDotAux s.toList []

/-- `parts.slice(1).join('.')` for `parts = name.split('.')`
(`buildSubdomainRelations`, source lines 249-252). -/
def parentName (name : String) : String :=
  String.intercalate "." ((splitDot name).drop 1)

/-- Index of the record a JavaScript `Map` lookup by name hits.  `domainMap`
is built with `domains.forEach((d) => domainMap.set(d.name, d))`, so on
duplicate names the last write wins: the lookup returns the record at the
LAST index carrying the name (`none` when the name is absent). -/
def lastIdxWithName : List DomainData → String → Option Nat
  | [], _ => none
  | d :: ds, n =>
      match lastIdxWithName ds n with
      | some j => some (j + 1)
      | none => if d.name = n then some 0 else none

/-- The body of the relationship loop for one subdomain name: look the parent
up in the name map and, unless the child is already listed, append it to the
parent's `subdomains` (source lines 252-256). -/
def linkChild (ds : List DomainData) (childName : String) : List DomainData :=
  match lastIdxWithName ds (parentName childName) with
  | none => ds
  | some p =>
      match ds.get? p with
      | none => ds
      | some parent =>
          if childName ∈ parent.subdomains then ds
          else ds.set p { parent with subdomains := parent.subdomains ++ [childName] }

/-- One iteration of the `for (const domain of domains)` loop (source lines
248-258): only names that split into more than one part are subdomains. -/
def buildStep (ds : List DomainData) (childName : String) : List DomainData :=
  if 1 < (splitDot childName).length then linkChild ds childName else ds

/-- `DIDIndexer.buildSubdomainRelations` (source lines 242-261).  The loop
reads only `domain.name` from the array it mutates and names are never
rewritten, so iterating over the initial name sequence is exact. -/
def buildSubdomainRelations (ds : List DomainData) : List DomainData :=
  (ds.map DomainData.name).foldl buildStep ds

/-- A count-based batch descriptor `{ start, end }` (source lines 266-275);
the `end` field is named `stop` because `end` is a Lean keyword. -/
structure Batch where
  start : Nat
  stop : Nat
deriving Repr, DecidableEq

/-- The loop of `DIDIndexer.createBatches` (source lines 266-275):
`for (let i = 0; i < total; i += batchSize)` pushing
`{start: i, end: min(i + batchSize, total)}`.  One fuel unit per iteration;
`none` means the fuel budget was exhausted before `i` reached `total`. -/
def createBatchesLoop (total batchSize : Nat) : Nat → Nat → Option (List Batch)
  | 0, i => if i < total then none else some []
  | fuel + 1, i =>
    if i < total then
      match createBatchesLoop total batchSize fuel (i + batchSize) with
      | none => none
      | some rest => some (⟨i, min (i + batchSize) total⟩ :: rest)
    else some []

/-- `DIDIndexer.createBatches`: for a positive step, `total` iterations of
fuel always suffice, so the wrapper runs the loop with that budget. -/
def createBatches (total batchSize : Nat) : Option (List Batch) :=
  createBatchesLoop total batchSize total 0

/-- The loop of `DIDIndexer.createBatchesFromArray` (source lines 280-286):
`for (let i = 0; i < items.length; i += batchSize)` pushing
`items.slice(i, i + batchSize)`. -/
def createBatchesFromArrayLoop (items : List α) (batchSize : Nat) :
    Nat → Nat → Option (List (List α))
  | 0, i => if i < items.length then none else some []
  | fuel + 1, i =>
    if i < items.length then
      match createBatchesFromArrayLoop items batchSize fuel (i + batchSize) with
      | none => none
      | some rest => some ((items.drop i).take batchSize :: rest)
    else some []

/-- `DIDIndexer.createBatchesFromArray`. -/
def createBatchesFromArray (items : List α) (batchSize : Nat) :
    Option (List (List α)) :=
  createBatchesFromArrayLoop items batchSize items.length 0

/-- The chunk size used by `batchGetDomainDetails` (source line 154):
`Math.floor(this.config.batchSize / 2)`, two encoded calls per identifier. -/
def detailBatchSize (batchSize : Nat) : Nat :=
  batchSize / 2

/-- `Promise.all(chunk.map(item => fn(item)))` over a deterministic worker:
every element of the chunk is dispatched; the first rejection (in element
order) becomes the rejection of the whole window. -/
def promiseAll (fn : α → Except ε β) : List α → Except ε (List β)
  | [] => .ok []
  | x :: xs =>
      match fn x with
      | .error e => .error e
      | .ok r =>
          match promiseAll fn xs with
          | .error e => .error e
          | .ok rs => .ok (r :: rs)

/-- The loop of `DIDIndexer.concurrentMap` (source lines 291-306):
`for (let i = 0; i < items.length; i += concurrency)` awaiting
`Promise.all` on `items.slice(i, i + concurrency)` and appending the window's
results in order.  The second component of the returned pair counts how many
leading elements of `items` were ever dispatched to the worker (the source
records this only implicitly — a rejected window aborts the loop, so items of
later windows are never executed).  `none` again means exhausted fuel. -/
def concurrentMapLoop (fn : α → Except ε β) (items : List α) (c : Nat) :
    Nat → Nat → Option (Except ε (List β) × Nat)
  | 0, i =>
    if i < items.length then none else some (.ok [], items.length)
  | fuel + 1, i =>
    if i < items.length then
      match promiseAll fn ((items.drop i).take c) with
      | .error e => some (.error e, i + ((items.drop i).take c).length)
      | .ok rs =>
          match concurrentMapLoop fn items c fuel (i + c) with
          | none => none
          | some (.ok rest, n) => some (.ok (rs ++ rest), n)
          | some (.error e, n) => some (.error e, n)
    else some (.ok [], items.length)

/-- `DIDIndexer.concurrentMap`, with the worker's effect modelled in
`Except` (a rejected promise carries an `ε`). -/
def concurrentMap (items : List α) (fn : α → Except ε β) (c : Nat) :
    Option (Except ε (List β) × Nat) :=
  concurrentMapLoop fn items c items.length 0

/-- Failures of `DIDIndexer.executeMulticallWithRetry`: either the final
attempt's cause rethrown after the retry budget is spent (source line 229),
or the trailing `throw new Error('Multicall failed')` after the loop (source
line 236, reachable only when `retryAttempts < 1`). -/
inductive RetryError (ε : Type u) where
  | callFailure (attempts : Nat) (cause : ε)
  | exhausted
deriving Repr, DecidableEq

/-- The loop of `DIDIndexer.executeMulticallWithRetry` (source lines
222-235), driven by the number of iterations the `for` loop has left
(`remaining = retryAttempts + 1 - attempt`, so the loop guard
`attempt <= retryAttempts` is `remaining > 0`).  `call` is the network
oracle: the outcome of `this.contract.multicall.staticCall(calls)` on each
attempt.  The sleep log records every `await this.sleep(1000 * attempt)`
performed before a retry. -/
def executeMulticallWithRetryGo (call : Nat → Except ε ρ) (retryAttempts : Nat) :
    Nat → Nat → List Nat → Except (RetryError ε) ρ × List Nat
  | 0, _, sleeps => (.error .exhausted, sleeps)
  | remaining + 1, attempt, sleeps =>
    match call attempt with
    | .ok r => (.ok r, sleeps)
    | .error e =>
        if attempt = retryAttempts then (.error (.callFailure attempt e), sleeps)
        else
          executeMulticallWithRetryGo call retryAttempts remaining (attempt + 1)
            (sleeps ++ [1000 * attempt])

/-- `DIDIndexer.executeMulticallWithRetry`: the loop starts at `attempt = 1`
with `retryAttempts` iterations available. -/
def executeMulticallWithRetry (call : Nat → Except ε ρ) (retryAttempts : Nat) :
    Except (RetryError ε) ρ × List Nat :=
  executeMulticallWithRetryGo call retryAttempts retryAttempts 1 []

/-- `owner.toLowerCase()` (source line 210), character-wise ASCII lowering. -/
def toLowerString (s : String) : String :=
  ⟨s.toList.map Char.toLower⟩

/-- The two encoded payload shapes produced in `multicallGetDetails` (source
lines 183-186); the ABI encoder is a collaborator, so a payload is abstracted
to the function selector plus its argument. -/
inductive EncodedCall where
  | getMetadata (tokenId : String)
  | ownerOf (tokenId : String)
deriving Repr, DecidableEq

/-- Failures surfaced by `multicallGetDetails`: the retrying caller's failure,
or a decode error (a result index missing / not interpretable). -/
inductive MulticallError (ε : Type u) where
  | call (e : ε)
  | decode
deriving Repr, DecidableEq

/-- The encode loop of `multicallGetDetails` (source lines 183-186): two
payloads pushed per identifier, metadata first, owner second. -/
def detailCalls (tokenIds : List String) : List EncodedCall :=
  (tokenIds.map fun t => [EncodedCall.getMetadata t, EncodedCall.ownerOf t]).flatten

/-- The decode loop of `multicallGetDetails` (source lines 192-213):
`for (let i = 0; i < tokenIds.length; i++)` reading `results[i * 2]` and
`results[i * 2 + 1]`, decoding through the injected collaborators, and
pushing one record with `owner` lowercased and `subdomains: []`.  The fuel
is the number of remaining iterations (`tokenIds.length - i`, exact for this
counting loop); an out-of-range read is a decode failure (`none`). -/
def decodeDetailsLoop (decodeMetadata : ρ → ContractMetadata)
    (decodeOwner : ρ → String) (tokenIds : List String) (results : List ρ) :
    Nat → Nat → Option (List DomainData)
  | 0, _ => some []
  | n + 1, i =>
    match tokenIds.get? i, results.get? (i * 2), results.get? (i * 2 + 1) with
    | some t, some mr, some ow =>
        match decodeDetailsLoop decodeMetadata decodeOwner tokenIds results n (i + 1) with
        | none => none
        | some rest =>
            some ({ id := t, name := (decodeMetadata mr).domain,
                    did := (decodeMetadata mr).did,
                    note := (decodeMetadata mr).notes,
                    allowSubdomain := (decodeMetadata mr).allowSubdomain,
                    owner := toLowerString (decodeOwner ow),
                    subdomains := [] } :: rest)
    | _, _, _ => none

/-- `DIDIndexer.multicallGetDetails` (source lines 178-216) for one batch of
identifiers.  `exec` is the retrying caller (`executeMulticallWithRetry`
applied to the encoded payloads), `decodeMetadata` / `decodeOwner` are the
ABI decode collaborators. -/
def multicallGetDetails (exec : List EncodedCall → Except ε (List ρ))
    (decodeMetadata : ρ → ContractMetadata) (decodeOwner : ρ → String)
    (tokenIds : List String) : Except (MulticallError ε) (List DomainData) :=
  match exec (detailCalls tokenIds) with
  | .error e => .error (.call e)
  | .ok results =>
      match decodeDetailsLoop decodeMetadata decodeOwner tokenIds results
          tokenIds.length 0 with
      | none => .error .decode
      | some domains => .ok domains

/-! ## Statistics (claim C8) -/

/-- Four records of which two have a dot in the name, three have a non-empty
decentralized id, and one allows subdomains. -/
def statsExample : List DomainData :=
  [ ⟨"1", "b", "did:ex:1", "", true, "o1", []⟩,
    ⟨"2", "c", "did:ex:2", "", false, "o2", []⟩,
    ⟨"3", "a.b", "did:ex:3", "", false, "o3", []⟩,
    ⟨"4", "c.a.b", "", "", false, "o4", []⟩ ]

/-- C8: `getStatistics` returns the list length as `total`, the number of
records whose name contains no dot as `topLevel`, the number with a dot as
`subdomains`, the number with non-empty `did` as `withDID`, and the number
with `allowSubdomain` set as `allowingSubdomains`; on the four-record example
with 2 dotted names, 3 non-empty dids and 1 subdomain-allowing record it
returns `{total := 4, topLevel := 2, subdomains := 2, withDID := 3,
allowingSubdomains := 1}`. -/
theorem getStatistics_spec :
    (∀ ds : List DomainData,
      getStatistics ds =
        { total := ds.length
          topLevel := ds.countP (fun d => !containsDot d.name)
          subdomains := ds.countP (fun d => containsDot d.name)
          withDID := ds.countP (fun d => d.did != "")
          allowingSubdomains := ds.countP (fun d => d.allowSubdomain) }) ∧
    getStatistics statsExample = ⟨4, 2, 2, 3, 1⟩ := by
  constructor
  · intro ds
    simp [getStatistics, List.countP_eq_length_filter]
  · decide

/-! ## Run configuration (claim C9) -/

/-- C9 counterexample: a configuration with `concurrency = 0` (violating the
spec's bound `concurrency ≥ 1`) is accepted unchanged — the run proceeds with
it instead of failing with a `ConfigError`.  No bounds check exists anywhere
in `src/index.ts` or in the `DIDIndexer` constructor. -/
theorem mkConfig_accepts_zero_concurrency :
    mkConfig (some "http://node") (some "0xregistry") none (some 0) none =
      .ok { rpcUrl := "http://node", contractAddress := "0xregistry",
            batchSize := 500, concurrency := 0, retryAttempts := 3 } := rfl

/-- C9 (amended): the configuration logic never validates the numeric bounds:
whenever both `RPC_URL` and `CONTRACT_ADDRESS` are present the run proceeds
with whatever numeric values were supplied (defaults 500 / 5 / 3), and the
only failing configurations are those missing one of the two strings. -/
theorem mkConfig_spec :
    (∀ r a b c t, mkConfig (some r) (some a) b c t =
        .ok { rpcUrl := r, contractAddress := a, batchSize := b.getD 500,
              concurrency := c.getD 5, retryAttempts := t.getD 3 }) ∧
    (∀ a b c t, mkConfig none a b c t = .error .missingEnv) ∧
    (∀ r b c t, mkConfig r none b c t = .error .missingEnv) := by
  refine ⟨fun r a b c t => rfl, fun a b c t => ?_, fun r b c t => ?_⟩
  · cases a <;> rfl
  · cases r <;> rfl

/-! ## Count-based batch scheduling (claim C2) -/

/-- Arithmetic step for the batch-count formula: prepending one more chunk to
a schedule over `t - c` remaining units matches the ceiling division. -/
theorem div_step (c : Nat) (hc : 1 ≤ c) (t : Nat) (ht : 1 ≤ t) :
    (t - c + (c - 1)) / c + 1 = (t + (c - 1)) / c := by
  by_cases h : t ≤ c
  · have h1 : t - c = 0 := by omega
    rw [h1]
    have h2 : (0 + (c - 1)) / c = 0 := Nat.div_eq_of_lt (by omega)
    rw [h2]
    have h3 : (t + (c - 1)) / c = 1 := Nat.div_eq_of_lt_le (by omega) (by omega)
    rw [h3]
  · have h1 : t - c + (c - 1) = t - 1 := by omega
    have h2 : t + (c - 1) = (t - 1) + c := by omega
    rw [h1, h2, Nat.add_div_right _ (by omega)]

/-- Closed form of the `createBatches` loop: starting at index `i` with a
positive step and enough fuel, it returns the ranges
`[i + c*k, min (i + c*k + c) total)` for `k` below the ceiling count. -/
theorem createBatchesLoop_formula (total c : Nat) (hc : 1 ≤ c) :
    ∀ fuel i, total - i ≤ fuel →
      ∃ bs, createBatchesLoop total c fuel i = some bs ∧
        bs.length = (total - i + (c - 1)) / c ∧
        ∀ k (hk : k < bs.length),
          bs.get ⟨k, hk⟩ = ⟨i + c * k, min (i + c * k + c) total⟩ := by
  intro fuel
  induction fuel with
  | zero =>
    intro i hi
    have h2 : ¬ i < total := by omega
    refine ⟨[], by simp [createBatchesLoop, h2], ?_, ?_⟩
    · have h3 : total - i = 0 := by omega
      rw [h3, List.length_nil, Eq.comm]
      exact Nat.div_eq_of_lt (by omega)
    · intro k hk
      simp at hk
  | succ fuel ih =>
    intro i hi
    by_cases h : i < total
    · obtain ⟨rest, hrest, hlen, hget⟩ := ih (i + c) (by omega)
      refine ⟨⟨i, min (i + c) total⟩ :: rest, ?_, ?_, ?_⟩
      · simp [createBatchesLoop, h, hrest]
      · rw [List.length_cons, hlen]
        have h4 : total - (i + c) = (total - i) - c := by omega
        rw [h4]
        exact div_step c hc (total - i) (by omega)
      · intro k hk
        match k with
        | 0 => simp
        | k + 1 =>
          rw [List.get_cons_succ, hget k (by simpa using hk)]
          have e1 : i + c + c * k = i + c * (k + 1) := by ring
          rw [e1]
    · refine ⟨[], by simp [createBatchesLoop, h], ?_, ?_⟩
      · have h3 : total - i = 0 := by omega
        rw [h3, List.length_nil, Eq.comm]
        exact Nat.div_eq_of_lt (by omega)
      · intro k hk
        simp at hk

/-- A schedule index is valid exactly when its range starts inside the
total. -/
theorem lt_numBatches_iff (total c : Nat) (hc : 1 ≤ c) (k : Nat) :
    k < (total + (c - 1)) / c ↔ c * k < total := by
  rw [Nat.lt_iff_add_one_le, Nat.le_div_iff_mul_le (show 0 < c by omega)]
  have e : (k + 1) * c = c * k + c := by ring
  rw [e]
  generalize c * k = m
  omega

/-- C2: for every `total` and every `chunkSize ≥ 1`, `createBatches` returns
the ranges `[c*k, min (c*k + c, total))` in order; they cover `[0, total)`
exactly once (each point lies in a unique range), consecutive ranges abut,
`total = 0` yields no ranges, and the last range has length `total % c`
unless that remainder is zero, in which case it has length `c`. -/
theorem createBatches_spec (total c : Nat) (hc : 1 ≤ c) :
    ∃ bs, createBatches total c = some bs ∧
      (∀ k (hk : k < bs.length), bs.get ⟨k, hk⟩ = ⟨c * k, min (c * k + c) total⟩) ∧
      (∀ n, n < total ↔ ∃! k, ∃ hk : k < bs.length,
          (bs.get ⟨k, hk⟩).start ≤ n ∧ n < (bs.get ⟨k, hk⟩).stop) ∧
      (∀ k (hk : k + 1 < bs.length),
          (bs.get ⟨k, Nat.lt_of_succ_lt hk⟩).stop = (bs.get ⟨k + 1, hk⟩).start) ∧
      (total = 0 → bs = []) ∧
      (∀ hne : bs ≠ [], (bs.getLast hne).stop - (bs.getLast hne).start =
          if total % c = 0 then c else total % c) := by
  obtain ⟨bs, hbs, hlen, hget⟩ := createBatchesLoop_formula total c hc total 0 (by omega)
  have hget2 : ∀ k (hk : k < bs.length), bs.get ⟨k, hk⟩ = ⟨c * k, min (c * k + c) total⟩ := by
    intro k hk
    rw [hget k hk]
    simp
  have hlen2 : bs.length = (total + (c - 1)) / c := by
    rw [hlen]
    simp
  have hidx : ∀ k, k < bs.length ↔ c * k < total := by
    intro k
    rw [hlen2]
    exact lt_numBatches_iff total c hc k
  refine ⟨bs, hbs, hget2, ?_, ?_, ?_, ?_⟩
  · intro n
    constructor
    · intro hn
      have hk : n / c < bs.length := by
        rw [hidx]
        calc c * (n / c) ≤ n := by rw [Nat.mul_comm]; exact Nat.div_mul_le_self n c
          _ < total := hn
      have hdm := Nat.div_add_mod n c
      have hmlt := Nat.mod_lt n (show 0 < c by omega)
      refine ⟨n / c, ⟨hk, ?_, ?_⟩, ?_⟩
      · rw [hget2 _ hk]
        show c * (n / c) ≤ n
        omega
      · rw [hget2 _ hk]
        show n < min (c * (n / c) + c) total
        rw [Nat.lt_min]
        omega
      · intro y hy
        obtain ⟨hky, hs, he⟩ := hy
        rw [hget2 _ hky] at hs he
        simp only at hs he
        rw [Nat.lt_min] at he
        symm
        exact Nat.div_eq_of_lt_le (by rw [Nat.mul_comm]; exact hs)
          (by have e : (y + 1) * c = c * y + c := by ring
              omega)
    · rintro ⟨k, ⟨hk, hs, he⟩, -⟩
      rw [hget2 _ hk] at he
      simp only at he
      rw [Nat.lt_min] at he
      exact he.2
  · intro k hk
    rw [hget2 _ (Nat.lt_of_succ_lt hk), hget2 _ hk]
    simp only
    have h1 : c * (k + 1) < total := (hidx (k + 1)).mp hk
    have e : c * (k + 1) = c * k + c := by ring
    rw [Nat.min_eq_left (by omega)]
    omega
  · intro h0
    subst h0
    have : bs.length = 0 := by
      rw [hlen2]
      exact Nat.div_eq_of_lt (by omega)
    exact List.eq_nil_of_length_eq_zero this
  · intro hne
    have hlen0 : 0 < bs.length := List.length_pos.mpr hne
    have hL : bs.length - 1 < bs.length := by omega
    rw [List.getLast_eq_get bs hne, hget2 _ hL]
    simp only
    set L := bs.length - 1 with hLdef
    have h1 : c * L < total := (hidx L).mp hL
    have h3 : ¬ c * (L + 1) < total := by
      intro hcon
      have := (hidx (L + 1)).mpr hcon
      omega
    have e : c * (L + 1) = c * L + c := by ring
    have h4 : total ≤ c * L + c := by omega
    rw [Nat.min_eq_right (by omega)]
    by_cases hr : total % c = 0
    · simp only [hr, if_pos]
      have hdvd : c ∣ total := Nat.dvd_of_mod_eq_zero hr
      have hdvd2 : c ∣ total - c * L := Nat.dvd_sub' hdvd ⟨L, rfl⟩
      have hle : c ≤ total - c * L := Nat.le_of_dvd (by omega) hdvd2
      omega
    · rw [if_neg hr]
      have hd := Nat.div_add_mod total c
      have hmlt := Nat.mod_lt total (show 0 < c by omega)
      have hLq : L = total / c := by
        rcases Nat.lt_trichotomy L (total / c) with hlt | heq | hgt
        · exfalso
          have h5 : c * (L + 1) ≤ c * (total / c) := Nat.mul_le_mul_left c hlt
          omega
        · exact heq
        · exfalso
          have h5 : c * (total / c + 1) ≤ c * L := Nat.mul_le_mul_left c hgt
          have e2 : c * (total / c + 1) = c * (total / c) + c := by ring
          omega
      rw [hLq]
      omega

/-- C2 witness: the schedule for `total = 5`, `chunkSize = 2`. -/
theorem createBatches_spec_witness :
    1 ≤ 2 ∧
    ∃ bs, createBatches 5 2 = some bs ∧
      (∀ k (hk : k < bs.length), bs.get ⟨k, hk⟩ = ⟨2 * k, min (2 * k + 2) 5⟩) ∧
      (∀ n, n < 5 ↔ ∃! k, ∃ hk : k < bs.length,
          (bs.get ⟨k, hk⟩).start ≤ n ∧ n < (bs.get ⟨k, hk⟩).stop) ∧
      (∀ k (hk : k + 1 < bs.length),
          (bs.get ⟨k, Nat.lt_of_succ_lt hk⟩).stop = (bs.get ⟨k + 1, hk⟩).start) ∧
      ((5 : Nat) = 0 → bs = []) ∧
      (∀ hne : bs ≠ [], (bs.getLast hne).stop - (bs.getLast hne).start =
          if 5 % 2 = 0 then 2 else 5 % 2) :=
  ⟨by decide, createBatches_spec 5 2 (by decide)⟩


/-! ## Bounded concurrent mapping (claims C1, C4, C10) -/

/-- `Promise.all` over a window of an always-succeeding worker resolves to
the worker's results in window order. -/
theorem promiseAll_pure {α β ε : Type} (g : α → β) :
    ∀ l : List α, promiseAll (ε := ε) (fun x => .ok (g x)) l = .ok (l.map g) := by
  intro l
  induction l with
  | nil => rfl
  | cons x xs ih => simp [promiseAll, ih]

/-- The `concurrentMap` loop with an always-succeeding worker: from any
window start `i`, enough fuel yields exactly the mapped suffix. -/
theorem concurrentMapLoop_pure {α β ε : Type} (items : List α) (g : α → β) (c : Nat)
    (hc : 1 ≤ c) :
    ∀ fuel i, items.length - i ≤ fuel →
      concurrentMapLoop (ε := ε) (fun x => .ok (g x)) items c fuel i =
        some (.ok ((items.drop i).map g), items.length) := by
  intro fuel
  induction fuel with
  | zero =>
    intro i hi
    have h2 : ¬ i < items.length := by omega
    have h3 : items.drop i = [] := List.drop_eq_nil_of_le (by omega)
    simp [concurrentMapLoop, h2, h3]
  | succ fuel ih =>
    intro i hi
    by_cases h : i < items.length
    · rw [concurrentMapLoop, if_pos h, promiseAll_pure, ih (i + c) (by omega)]
      have e1 : items.drop (i + c) = (items.drop i).drop c := by
        rw [List.drop_drop, Nat.add_comm]
      have e2 : ((items.drop i).take c).map g ++ ((items.drop i).drop c).map g
          = (items.drop i).map g := by
        rw [← List.map_append, List.take_append_drop]
      rw [e1]
      simp only
      rw [e2]
    · have h3 : items.drop i = [] := List.drop_eq_nil_of_le (by omega)
      simp [concurrentMapLoop, h, h3]

/-- C1: for every item list, every (non-failing) worker and every
concurrency value at least 1, `concurrentMap` returns the plain map of the
worker over the input — same length, k-th output from k-th input, and the
same value for every concurrency bound (the right-hand side does not mention
`c`).  The second component records that every item was dispatched. -/
theorem concurrentMap_pure_order {α β ε : Type} (items : List α) (g : α → β) (c : Nat)
    (hc : 1 ≤ c) :
    concurrentMap (ε := ε) items (fun x => .ok (g x)) c =
      some (.ok (items.map g), items.length) := by
  have h := concurrentMapLoop_pure (ε := ε) items g c hc items.length 0 (by omega)
  rw [concurrentMap, h]
  simp

/-- C1 witness: three items under concurrency 2. -/
theorem concurrentMap_pure_order_witness :
    1 ≤ 2 ∧ concurrentMap (ε := Unit) [10, 20, 30] (fun n => .ok (n + 1)) 2 =
      some (.ok [11, 21, 31], 3) :=
  ⟨by decide, (concurrentMap_pure_order [10, 20, 30] (fun n => n + 1) 2 (by decide)).trans rfl⟩

/-- Indexing into a window `items.slice(i0, i0 + c)`. -/
theorem get_drop_take {α : Type} (l : List α) (i0 c j : Nat)
    (hj : j < ((l.drop i0).take c).length) (hj2 : i0 + j < l.length) :
    ((l.drop i0).take c).get ⟨j, hj⟩ = l.get ⟨i0 + j, hj2⟩ := by
  have h1 : j < (l.drop i0).length := by
    have := hj
    simp [List.length_take, List.length_drop] at this ⊢
    omega
  simp [List.get_eq_getElem, List.getElem_take, List.getElem_drop]

/-- Length of a window `items.slice(i0, i0 + c)`. -/
theorem length_drop_take {α : Type} (l : List α) (i0 c : Nat) :
    ((l.drop i0).take c).length = min c (l.length - i0) := by
  simp [List.length_take, List.length_drop]

/-- `Promise.all` rejects with the first rejecting element's failure. -/
theorem promiseAll_firstError {α β ε : Type} (fn : α → Except ε β) (e : ε) :
    ∀ (l : List α) (m : Nat) (hm : m < l.length),
      (∀ j (hj : j < l.length), j < m → (fn (l.get ⟨j, hj⟩)).isOk) →
      fn (l.get ⟨m, hm⟩) = .error e →
      promiseAll fn l = .error e := by
  intro l
  induction l with
  | nil =>
    intro m hm
    simp at hm
  | cons x xs ih =>
    intro m hm hok hfail
    match m with
    | 0 =>
      simp at hfail
      simp [promiseAll, hfail]
    | m + 1 =>
      have h0 := hok 0 (by simp) (by omega)
      simp at h0
      cases hx : fn x with
      | error e2 => rw [hx] at h0; simp [Except.isOk, Except.toBool] at h0
      | ok r =>
        rw [promiseAll, hx]
        rw [ih m (by simpa using hm)
          (fun j hj hjm => by
            have := hok (j + 1) (by simpa using hj) (by omega)
            simpa using this)
          (by simpa using hfail)]

/-- `Promise.all` over a window whose elements all succeed resolves. -/
theorem promiseAll_allOk {α β ε : Type} (fn : α → Except ε β) :
    ∀ l : List α,
      (∀ j (hj : j < l.length), (fn (l.get ⟨j, hj⟩)).isOk) →
      ∃ rs, promiseAll fn l = .ok rs := by
  intro l
  induction l with
  | nil => exact fun _ => ⟨[], rfl⟩
  | cons x xs ih =>
    intro hok
    have h0 := hok 0 (by simp)
    simp at h0
    cases hx : fn x with
    | error e2 => rw [hx] at h0; simp [Except.isOk, Except.toBool] at h0
    | ok r =>
      obtain ⟨rs, hrs⟩ := ih (fun j hj => by
        have := hok (j + 1) (by simpa using hj)
        simpa using this)
      exact ⟨r :: rs, by rw [promiseAll, hx, hrs]⟩

/-- The `concurrentMap` loop aborts at the window of the first failing unit,
propagating that unit's failure; exactly the windows up to and including the
failing one are dispatched. -/
theorem concurrentMapLoop_firstFailure {α β ε : Type} (items : List α)
    (fn : α → Except ε β) (c : Nat) (hc : 1 ≤ c) (i : Nat) (hi : i < items.length)
    (e : ε) (hfail : fn (items.get ⟨i, hi⟩) = .error e)
    (hok : ∀ j (hj : j < items.length), j < i → (fn (items.get ⟨j, hj⟩)).isOk) :
    ∀ fuel w i0, i0 = c * w → i0 ≤ i → items.length - i0 ≤ fuel →
      concurrentMapLoop fn items c fuel i0 =
        some (.error e, min (c * (i / c) + c) items.length) := by
  intro fuel
  induction fuel with
  | zero =>
    intro w i0 hw hii hf
    omega
  | succ fuel ih =>
    intro w i0 hw hii hf
    have h : i0 < items.length := by omega
    by_cases hcase : i < i0 + c
    · -- the failing unit is inside the current window
      have hchunk : ((items.drop i0).take c).length = min c (items.length - i0) :=
        length_drop_take items i0 c
      have hm : i - i0 < ((items.drop i0).take c).length := by
        rw [hchunk]
        omega
      have hmfail : fn (((items.drop i0).take c).get ⟨i - i0, hm⟩) = .error e := by
        rw [get_drop_take items i0 c (i - i0) hm (by omega)]
        have e2 : i0 + (i - i0) = i := by omega
        simp only [e2]
        exact hfail
      have hmok : ∀ j (hj : j < ((items.drop i0).take c).length), j < i - i0 →
          (fn (((items.drop i0).take c).get ⟨j, hj⟩)).isOk := by
        intro j hj hjm
        have hj3 : i0 + j < items.length := by
          rw [hchunk] at hj
          omega
        rw [get_drop_take items i0 c j hj hj3]
        exact hok (i0 + j) hj3 (by omega)
      rw [concurrentMapLoop, if_pos h,
        promiseAll_firstError fn e _ (i - i0) hm hmok hmfail]
      have hdiv : i / c = w := by
        have e1 : i = c * w + (i - i0) := by omega
        rw [e1, Nat.mul_add_div (by omega), Nat.div_eq_of_lt (by omega)]
        omega
      rw [hdiv, hchunk]
      have e3 : i0 + min c (items.length - i0) = min (c * w + c) items.length := by
        omega
      rw [e3]
    · -- the whole current window succeeds; failure is in a later window
      obtain ⟨rs, hrs⟩ := promiseAll_allOk fn ((items.drop i0).take c) (by
        intro j hj
        have hj3 : i0 + j < items.length := by
          have := hj
          rw [length_drop_take] at this
          omega
        rw [get_drop_take items i0 c j hj hj3]
        refine hok (i0 + j) hj3 ?_
        have := hj
        rw [length_drop_take] at this
        omega)
      rw [concurrentMapLoop, if_pos h, hrs,
        ih (w + 1) (i0 + c) (by rw [hw]; ring) (by omega) (by omega)]

/-- C4: when the first failing unit (failing after its retries are already
accounted for inside `fn`) sits at index `i`, `concurrentMap` fails with that
unit's failure and returns no result list: the already-succeeded units of the
same window are discarded (only the error escapes), the dispatch count stops
at the end of the failing window (`min (c*(i/c) + c) items.length`), and —
second conjunct — units beyond that count never influence the outcome
because they are never executed. -/
theorem concurrentMap_failFast {α β ε : Type} (items : List α) (fn : α → Except ε β)
    (c : Nat) (hc : 1 ≤ c) (i : Nat) (hi : i < items.length) (e : ε)
    (hfail : fn (items.get ⟨i, hi⟩) = .error e)
    (hok : ∀ j (hj : j < items.length), j < i → (fn (items.get ⟨j, hj⟩)).isOk) :
    concurrentMap items fn c = some (.error e, min (c * (i / c) + c) items.length) ∧
    ∀ fn2 : α → Except ε β,
      (∀ j (hj : j < items.length), j < min (c * (i / c) + c) items.length →
        fn2 (items.get ⟨j, hj⟩) = fn (items.get ⟨j, hj⟩)) →
      concurrentMap items fn2 c =
        some (.error e, min (c * (i / c) + c) items.length) := by
  have hdm := Nat.div_add_mod i c
  have hmlt := Nat.mod_lt i (show 0 < c by omega)
  have hiwin : i < min (c * (i / c) + c) items.length := by
    omega
  constructor
  · exact concurrentMapLoop_firstFailure items fn c hc i hi e hfail hok
      items.length 0 0 (by ring) (by omega) (by omega)
  · intro fn2 hagree
    have hfail2 : fn2 (items.get ⟨i, hi⟩) = .error e := by
      rw [hagree i hi hiwin]
      exact hfail
    have hok2 : ∀ j (hj : j < items.length), j < i → (fn2 (items.get ⟨j, hj⟩)).isOk := by
      intro j hj hji
      rw [hagree j hj (by omega)]
      exact hok j hj hji
    exact concurrentMapLoop_firstFailure items fn2 c hc i hi e hfail2 hok2
      items.length 0 0 (by ring) (by omega) (by omega)

/-- With a positive step, `items.length` fuel always finishes the
`createBatchesFromArray` loop. -/
theorem createBatchesFromArrayLoop_terminates {α : Type} (items : List α) (c : Nat)
    (hc : 1 ≤ c) :
    ∀ fuel i, items.length - i ≤ fuel →
      ∃ bs, createBatchesFromArrayLoop items c fuel i = some bs := by
  intro fuel
  induction fuel with
  | zero =>
    intro i hi
    have h2 : ¬ i < items.length := by omega
    exact ⟨[], by simp [createBatchesFromArrayLoop, h2]⟩
  | succ fuel ih =>
    intro i hi
    by_cases h : i < items.length
    · obtain ⟨bs, hbs⟩ := ih (i + c) (by omega)
      exact ⟨(items.drop i).take c :: bs, by simp [createBatchesFromArrayLoop, h, hbs]⟩
    · exact ⟨[], by simp [createBatchesFromArrayLoop, h]⟩

/-- With a positive step, `items.length` fuel always finishes the
`concurrentMap` loop, whatever the workers do. -/
theorem concurrentMapLoop_terminates {α β ε : Type} (items : List α)
    (fn : α → Except ε β) (c : Nat) (hc : 1 ≤ c) :
    ∀ fuel i, items.length - i ≤ fuel →
      ∃ r, concurrentMapLoop fn items c fuel i = some r := by
  intro fuel
  induction fuel with
  | zero =>
    intro i hi
    have h2 : ¬ i < items.length := by omega
    exact ⟨(.ok [], items.length), by simp [concurrentMapLoop, h2]⟩
  | succ fuel ih =>
    intro i hi
    by_cases h : i < items.length
    · cases hp : promiseAll fn ((items.drop i).take c) with
      | error e =>
        exact ⟨(.error e, i + ((items.drop i).take c).length),
          by rw [concurrentMapLoop, if_pos h, hp]⟩
      | ok rs =>
        obtain ⟨r, hr⟩ := ih (i + c) (by omega)
        obtain ⟨res, n⟩ := r
        cases res with
        | ok rest =>
          exact ⟨(.ok (rs ++ rest), n), by rw [concurrentMapLoop, if_pos h, hp, hr]⟩
        | error e =>
          exact ⟨(.error e, n), by rw [concurrentMapLoop, if_pos h, hp, hr]⟩
    · exact ⟨(.ok [], items.length), by simp [concurrentMapLoop, h]⟩

/-- With step 0 and a non-empty input the `createBatchesFromArray` loop
never finishes: every fuel budget is exhausted (`i` never advances). -/
theorem createBatchesFromArrayLoop_zero_stuck {α : Type} (items : List α) :
    ∀ fuel i, i < items.length →
      createBatchesFromArrayLoop items 0 fuel i = none := by
  intro fuel
  induction fuel with
  | zero =>
    intro i hi
    simp [createBatchesFromArrayLoop, hi]
  | succ fuel ih =>
    intro i hi
    rw [createBatchesFromArrayLoop, if_pos hi]
    have := ih (i + 0) (by omega)
    rw [this]

/-- With step 0 and a non-empty input the `concurrentMap` loop never
finishes: each iteration dispatches the empty window `slice(i, i)` and loops
with `i` unchanged. -/
theorem concurrentMapLoop_zero_stuck {α β ε : Type} (items : List α)
    (fn : α → Except ε β) :
    ∀ fuel i, i < items.length →
      concurrentMapLoop fn items 0 fuel i = none := by
  intro fuel
  induction fuel with
  | zero =>
    intro i hi
    simp [concurrentMapLoop, hi]
  | succ fuel ih =>
    intro i hi
    rw [concurrentMapLoop, if_pos hi]
    simp only [List.take_zero]
    rw [show promiseAll fn ([] : List α) = .ok [] from rfl]
    have := ih (i + 0) (by omega)
    rw [this]

/-- C10: the step-by-chunk loops terminate exactly for step parameters of at
least 1.  `createBatchesFromArray` and `concurrentMap` always return a value
when the step is ≥ 1; with step ≤ 0 and a non-empty input, no fuel budget
ever completes them (the embedded loop diverges).  In particular the details
stage's chunk size is `⌊batchSize / 2⌋`, so the spec-legal `batchSize = 1`
yields chunk size 0 and the details stage diverges on any non-empty
identifier list. -/
theorem stepLoops_terminate_iff :
    (∀ (α : Type) (items : List α) (c : Nat), 1 ≤ c →
        ∃ bs, createBatchesFromArray items c = some bs) ∧
    (∀ (α β ε : Type) (items : List α) (fn : α → Except ε β) (c : Nat), 1 ≤ c →
        ∃ r, concurrentMap items fn c = some r) ∧
    (∀ (α : Type) (items : List α) (c : Nat), c ≤ 0 → items ≠ [] →
        ∀ fuel, createBatchesFromArrayLoop items c fuel 0 = none) ∧
    (∀ (α β ε : Type) (items : List α) (fn : α → Except ε β) (c : Nat),
        c ≤ 0 → items ≠ [] → ∀ fuel, concurrentMapLoop fn items c fuel 0 = none) ∧
    (detailBatchSize 1 = 0 ∧
      ∀ tokenIds : List String, tokenIds ≠ [] →
        ∀ fuel, createBatchesFromArrayLoop tokenIds (detailBatchSize 1) fuel 0 = none) := by
  have hzlen : ∀ (α : Type) (items : List α), items ≠ [] → 0 < items.length := by
    intro α items hne
    exact List.length_pos.mpr hne
  refine ⟨?_, ?_, ?_, ?_, rfl, ?_⟩
  · intro α items c hc
    exact createBatchesFromArrayLoop_terminates items c hc items.length 0 (by omega)
  · intro α β ε items fn c hc
    exact concurrentMapLoop_terminates items fn c hc items.length 0 (by omega)
  · intro α items c hc hne fuel
    have hc0 : c = 0 := by omega
    subst hc0
    exact createBatchesFromArrayLoop_zero_stuck items fuel 0 (hzlen α items hne)
  · intro α β ε items fn c hc hne fuel
    have hc0 : c = 0 := by omega
    subst hc0
    exact concurrentMapLoop_zero_stuck items fn fuel 0 (hzlen α items hne)
  · intro tokenIds hne fuel
    exact createBatchesFromArrayLoop_zero_stuck tokenIds fuel 0 (hzlen String tokenIds hne)

/-- C10 witness: concrete runs of both loops with steps 2, 1 and 0, and the
details-stage chunk size for `batchSize = 1`. -/
theorem stepLoops_terminate_iff_witness :
    (∃ bs, createBatchesFromArray [10, 20, 30] 2 = some bs) ∧
    (∃ r, concurrentMap [10] (fun n => (.ok n : Except Unit Nat)) 1 = some r) ∧
    createBatchesFromArrayLoop [10] 0 7 0 = none ∧
    concurrentMapLoop (fun n => (.ok n : Except Unit Nat)) [10] 0 7 0 = none ∧
    createBatchesFromArrayLoop ["x"] (detailBatchSize 1) 7 0 = none :=
  ⟨stepLoops_terminate_iff.1 Nat [10, 20, 30] 2 (by decide),
   stepLoops_terminate_iff.2.1 Nat Nat Unit [10] _ 1 (by decide),
   stepLoops_terminate_iff.2.2.1 Nat [10] 0 (by decide) (by decide) 7,
   stepLoops_terminate_iff.2.2.2.1 Nat Nat Unit [10] _ 0 (by decide) (by decide) 7,
   stepLoops_terminate_iff.2.2.2.2.2 ["x"] (by decide) 7⟩

/-- The worker used in the C4 witness: unit 3 (at index 2) always fails. -/
def failFn : Nat → Except String Nat :=
  fun n => if n = 3 then .error "boom" else .ok n

/-- C4 witness: six items, concurrency 2, first failure at index 2; the run
fails with that unit's failure after dispatching only the first four items.
-/
theorem concurrentMap_failFast_witness :
    1 ≤ 2 ∧
    concurrentMap [1, 2, 3, 4, 5, 6] failFn 2 =
      some (.error "boom", min (2 * (2 / 2) + 2) 6) :=
  ⟨by decide,
   (concurrentMap_failFast [1, 2, 3, 4, 5, 6] failFn 2 (by decide) 2 (by decide)
      "boom" rfl (by intro j hj hj2; interval_cases j <;> rfl)).1⟩

theorem executeMulticallWithRetryGo_ok {ε ρ : Type} (call : Nat → Except ε ρ)
    (ra j : Nat) (r : ρ) (hj : call j = .ok r) (hjra : j ≤ ra) :
    ∀ d a rem sleeps, rem = ra + 1 - a → a + d = j → 1 ≤ a →
      (∀ i, a ≤ i → i < j → ∃ e, call i = .error e) →
      executeMulticallWithRetryGo call ra rem a sleeps =
        (.ok r, sleeps ++ (List.range' a d).map (fun i => 1000 * i)) := by
  intro d
  induction d with
  | zero =>
    intro a rem sleeps hrem ha h1 hfails
    have haj : a = j := by omega
    subst haj
    have he : rem = (ra - a) + 1 := by omega
    rw [he, executeMulticallWithRetryGo, hj]
    simp
  | succ d ih =>
    intro a rem sleeps hrem ha h1 hfails
    obtain ⟨e, he⟩ := hfails a (by omega) (by omega)
    have hne : ¬ a = ra := by omega
    have h2 : rem = (ra - a) + 1 := by omega
    rw [h2, executeMulticallWithRetryGo, he]
    dsimp only
    rw [if_neg hne,
      ih (a + 1) (ra - a) (sleeps ++ [1000 * a]) (by omega) (by omega) (by omega)
        (fun i hi1 hi2 => hfails i (by omega) hi2),
      List.range'_succ]
    simp

theorem executeMulticallWithRetryGo_fail {ε ρ : Type} (call : Nat → Except ε ρ)
    (ra : Nat) (e : ε) (he : call ra = .error e) :
    ∀ d a rem sleeps, rem = ra + 1 - a → a + d = ra → 1 ≤ a →
      (∀ i, a ≤ i → i < ra → ∃ e2, call i = .error e2) →
      executeMulticallWithRetryGo call ra rem a sleeps =
        (.error (.callFailure ra e),
          sleeps ++ (List.range' a d).map (fun i => 1000 * i)) := by
  intro d
  induction d with
  | zero =>
    intro a rem sleeps hrem ha h1 hfails
    have haj : a = ra := by omega
    subst haj
    have h2 : rem = (a - a) + 1 := by omega
    rw [h2, executeMulticallWithRetryGo, he]
    dsimp only
    rw [if_pos rfl]
    simp
  | succ d ih =>
    intro a rem sleeps hrem ha h1 hfails
    obtain ⟨e2, he2⟩ := hfails a (by omega) (by omega)
    have hne : ¬ a = ra := by omega
    have h2 : rem = (ra - a) + 1 := by omega
    rw [h2, executeMulticallWithRetryGo, he2]
    dsimp only
    rw [if_neg hne,
      ih (a + 1) (ra - a) (sleeps ++ [1000 * a]) (by omega) (by omega) (by omega)
        (fun i hi1 hi2 => hfails i (by omega) hi2),
      List.range'_succ]
    simp

theorem executeMulticallWithRetryGo_congr {ε ρ : Type} (call call2 : Nat → Except ε ρ)
    (ra : Nat) :
    ∀ remaining a sleeps, a + remaining = ra + 1 →
      (∀ i, a ≤ i → i ≤ ra → call i = call2 i) →
      executeMulticallWithRetryGo call ra remaining a sleeps =
        executeMulticallWithRetryGo call2 ra remaining a sleeps := by
  intro remaining
  induction remaining with
  | zero => intro a sleeps ha hag; rfl
  | succ d ih =>
    intro a sleeps ha hag
    rw [executeMulticallWithRetryGo, executeMulticallWithRetryGo,
      ← hag a (by omega) (by omega)]
    cases hc : call a with
    | ok r => rfl
    | error e =>
      dsimp only
      by_cases hra : a = ra
      · rw [if_pos hra, if_pos hra]
      · rw [if_neg hra, if_neg hra]
        exact ih (a + 1) (sleeps ++ [1000 * a]) (by omega)
          (fun i hi1 hi2 => hag i (by omega) hi2)

/-- C3: with `maxAttempts = retryAttempts ≥ 1`: (1) if attempts below `j`
fail and attempt `j ≤ retryAttempts` succeeds, the retrying caller returns
attempt `j`'s results after sleeping `1000 * attempt` milliseconds for each
failed attempt `1, …, j-1` (linear backoff, base 1000 ms); (2) if every
attempt up to `retryAttempts` fails, it fails with the final attempt's cause
wrapped in `CallFailure` carrying the attempt count, after the same backoff
schedule; (3) the outcome depends only on attempts `1, …, retryAttempts`, so
at most `maxAttempts` attempts are ever made. -/
theorem executeMulticallWithRetry_spec {ε ρ : Type} (call : Nat → Except ε ρ)
    (ra : Nat) (hra : 1 ≤ ra) :
    (∀ j r, 1 ≤ j → j ≤ ra →
      (∀ i, 1 ≤ i → i < j → ∃ e, call i = .error e) → call j = .ok r →
      executeMulticallWithRetry call ra =
        (.ok r, (List.range' 1 (j - 1)).map (fun i => 1000 * i))) ∧
    (∀ e, (∀ i, 1 ≤ i → i < ra → ∃ e2, call i = .error e2) → call ra = .error e →
      executeMulticallWithRetry call ra =
        (.error (.callFailure ra e), (List.range' 1 (ra - 1)).map (fun i => 1000 * i))) ∧
    (∀ call2 : Nat → Except ε ρ, (∀ i, 1 ≤ i → i ≤ ra → call i = call2 i) →
      executeMulticallWithRetry call ra = executeMulticallWithRetry call2 ra) := by
  refine ⟨?_, ?_, ?_⟩
  · intro j r h1 h2 hfails hj
    rw [executeMulticallWithRetry,
      executeMulticallWithRetryGo_ok call ra j r hj h2 (j - 1) 1 ra [] (by omega)
        (by omega) (by omega) (fun i hi1 hi2 => hfails i hi1 hi2)]
    simp
  · intro e hfails he
    rw [executeMulticallWithRetry,
      executeMulticallWithRetryGo_fail call ra e he (ra - 1) 1 ra [] (by omega)
        (by omega) (by omega) (fun i hi1 hi2 => hfails i hi1 hi2)]
    simp
  · intro call2 hag
    rw [executeMulticallWithRetry, executeMulticallWithRetry]
    exact executeMulticallWithRetryGo_congr call call2 ra ra 1 [] (by omega) hag

/-- The network oracle used in the C3 witness: the first attempt fails with
cause 7, every later attempt succeeds with result 42. -/
def retryCallExample : Nat → Except Nat Nat :=
  fun i => if i = 1 then .error 7 else .ok 42

/-- C3 witness: three allowed attempts, failure then success — the result is
attempt 2's value after one backoff sleep of 1000 ms. -/
theorem executeMulticallWithRetry_spec_witness :
    1 ≤ 3 ∧
    executeMulticallWithRetry retryCallExample 3 =
      (.ok 42, (List.range' 1 (2 - 1)).map (fun i => 1000 * i)) :=
  ⟨by decide,
   (executeMulticallWithRetry_spec retryCallExample 3 (by decide)).1 2 42 (by decide)
     (by decide)
     (fun i hi1 hi2 => ⟨7, by
        have hi : i = 1 := by omega
        subst hi
        rfl⟩)
     rfl⟩

theorem detailCalls_length (tokenIds : List String) :
    (detailCalls tokenIds).length = 2 * tokenIds.length := by
  induction tokenIds with
  | nil => rfl
  | cons t ts ih =>
    simp only [detailCalls, List.map_cons, List.flatten_cons, List.length_append,
      List.length_cons] at ih ⊢
    simp only [List.length_nil]
    omega

theorem detailCalls_get (tokenIds : List String) :
    ∀ k, (detailCalls tokenIds).get? (2 * k)
          = (tokenIds.get? k).map EncodedCall.getMetadata ∧
         (detailCalls tokenIds).get? (2 * k + 1)
          = (tokenIds.get? k).map EncodedCall.ownerOf := by
  induction tokenIds with
  | nil =>
    intro k
    simp [detailCalls]
  | cons t ts ih =>
    intro k
    have hd : detailCalls (t :: ts)
        = .getMetadata t :: .ownerOf t :: detailCalls ts := rfl
    match k with
    | 0 => exact ⟨rfl, rfl⟩
    | k + 1 =>
      have e1 : 2 * (k + 1) = 2 * k + 1 + 1 := by ring
      rw [hd, e1]
      simp only [List.get?_cons_succ]
      exact ih k

theorem decodeDetailsLoop_spec {ρ : Type} (dm : ρ → ContractMetadata)
    (down : ρ → String) (tokenIds : List String) (results : List ρ)
    (hlen : results.length = 2 * tokenIds.length) :
    ∀ n i, i + n = tokenIds.length →
      ∃ ds, decodeDetailsLoop dm down tokenIds results n i = some ds ∧
        ds.length = n ∧
        ∀ k, k < n →
          ds.get? k = (tokenIds.get? (i + k)).bind (fun t =>
            (results.get? ((i + k) * 2)).bind (fun mr =>
              (results.get? ((i + k) * 2 + 1)).map (fun ow =>
                { id := t, name := (dm mr).domain, did := (dm mr).did,
                  note := (dm mr).notes, allowSubdomain := (dm mr).allowSubdomain,
                  owner := toLowerString (down ow), subdomains := [] }))) := by
  intro n
  induction n with
  | zero =>
    intro i hi
    refine ⟨[], rfl, rfl, ?_⟩
    intro k hk
    simp at hk
  | succ n ih =>
    intro i hi
    have hti : i < tokenIds.length := by omega
    have hmi : i * 2 < results.length := by omega
    have hoi : i * 2 + 1 < results.length := by omega
    obtain ⟨rest, hrest, hrlen, hrget⟩ := ih (i + 1) (by omega)
    refine ⟨{ id := tokenIds.get ⟨i, hti⟩,
              name := (dm (results.get ⟨i * 2, hmi⟩)).domain,
              did := (dm (results.get ⟨i * 2, hmi⟩)).did,
              note := (dm (results.get ⟨i * 2, hmi⟩)).notes,
              allowSubdomain := (dm (results.get ⟨i * 2, hmi⟩)).allowSubdomain,
              owner := toLowerString (down (results.get ⟨i * 2 + 1, hoi⟩)),
              subdomains := [] } :: rest, ?_, ?_, ?_⟩
    · rw [decodeDetailsLoop, List.get?_eq_get hti, List.get?_eq_get hmi,
        List.get?_eq_get hoi, hrest]
    · simp [hrlen]
    · intro k hk
      match k with
      | 0 =>
        rw [List.get?_cons_zero]
        simp only [Nat.add_zero]
        rw [List.get?_eq_get hti, List.get?_eq_get hmi, List.get?_eq_get hoi]
        rfl
      | k + 1 =>
        rw [List.get?_cons_succ]
        have e1 : i + (k + 1) = (i + 1) + k := by omega
        rw [e1]
        exact hrget k (by omega)

/-- C5: for a batch of `k` identifiers, the encoded payload list has length
`2 * k`, with payload `2*i` the metadata call and payload `2*i + 1` the owner
call of the i-th identifier; when the aggregated call answers with one raw
result per payload, decoding pairs `results[2*i]` / `results[2*i + 1]` by
that fixed interleaving and yields exactly one record per identifier, in
identifier order, with `id` the identifier, `owner` the lowercased decoded
owner and `subdomains` initialized empty. -/
theorem multicallGetDetails_spec {ε ρ : Type}
    (exec : List EncodedCall → Except ε (List ρ)) (dm : ρ → ContractMetadata)
    (down : ρ → String) (tokenIds : List String) (results : List ρ)
    (hexec : exec (detailCalls tokenIds) = .ok results)
    (hlen : results.length = (detailCalls tokenIds).length) :
    (detailCalls tokenIds).length = 2 * tokenIds.length ∧
    (∀ k, (detailCalls tokenIds).get? (2 * k)
            = (tokenIds.get? k).map EncodedCall.getMetadata ∧
          (detailCalls tokenIds).get? (2 * k + 1)
            = (tokenIds.get? k).map EncodedCall.ownerOf) ∧
    ∃ domains, multicallGetDetails exec dm down tokenIds = .ok domains ∧
      domains.length = tokenIds.length ∧
      ∀ k (hk : k < tokenIds.length) (hk2 : k < domains.length)
        (hm : k * 2 < results.length) (ho : k * 2 + 1 < results.length),
        domains.get ⟨k, hk2⟩ =
          { id := tokenIds.get ⟨k, hk⟩,
            name := (dm (results.get ⟨k * 2, hm⟩)).domain,
            did := (dm (results.get ⟨k * 2, hm⟩)).did,
            note := (dm (results.get ⟨k * 2, hm⟩)).notes,
            allowSubdomain := (dm (results.get ⟨k * 2, hm⟩)).allowSubdomain,
            owner := toLowerString (down (results.get ⟨k * 2 + 1, ho⟩)),
            subdomains := [] } := by
  have hlen2 : results.length = 2 * tokenIds.length := by
    rw [hlen, detailCalls_length]
  obtain ⟨ds, hds, hdlen, hdget⟩ :=
    decodeDetailsLoop_spec dm down tokenIds results hlen2 tokenIds.length 0 (by omega)
  refine ⟨detailCalls_length tokenIds, detailCalls_get tokenIds, ds, ?_, hdlen, ?_⟩
  · rw [multicallGetDetails, hexec]
    dsimp only
    rw [hds]
  · intro k hk hk2 hm ho
    have h := hdget k hk
    simp only [Nat.zero_add] at h
    rw [List.get?_eq_get hk2, List.get?_eq_get hk, List.get?_eq_get hm,
      List.get?_eq_get ho] at h
    simp at h
    exact h

/-- C5 witness gateway: one distinct raw result per payload, in order. -/
def execExample : List EncodedCall → Except Unit (List Nat) :=
  fun calls => .ok (List.range calls.length)

/-- C5 witness metadata decoder. -/
def dmExample : Nat → ContractMetadata :=
  fun _ => ⟨"dom", "did:x", "note", true⟩

/-- C5 witness owner decoder (mixed-case address, to exercise lowering). -/
def downExample : Nat → String :=
  fun _ => "0xAbCd"

/-- C5 witness: one identifier, two payloads, one decoded record with the
owner lowercased and `subdomains` empty. -/
theorem multicallGetDetails_spec_witness :
    execExample (detailCalls ["7"]) = .ok [0, 1] ∧
    ([0, 1] : List Nat).length = (detailCalls ["7"]).length ∧
    multicallGetDetails execExample dmExample downExample ["7"] =
      .ok [⟨"7", "dom", "did:x", "note", true, "0xabcd", []⟩] := by
  obtain ⟨h1, h2, ds, hds, hdlen, hdget⟩ :=
    multicallGetDetails_spec execExample dmExample downExample ["7"] [0, 1] rfl rfl
  refine ⟨rfl, rfl, ?_⟩
  rw [hds]
  congr 1
  apply List.ext_get
  · rw [hdlen]
    rfl
  · intro i hi1 hi2
    have hi0 : i = 0 := by
      rw [hdlen] at hi1
      simpa using hi1
    subst hi0
    rw [hdget 0 (by decide) (by rw [hdlen]; decide) (by decide) (by decide)]
    rfl

/-- The subdomain names the relationship pass adds to record `r`, drawn from
the processed name sequence in order: names that split into more than one
part, whose parent name is `r.name`, and that `r` does not already list. -/
def childrenToAdd (names : List String) (r : DomainData) : List String :=
  names.filter fun n =>
    decide (1 < (splitDot n).length ∧ parentName n = r.name ∧ ¬ n ∈ r.subdomains)

/-- One record after the relationship pass over `names`. -/
def linkChildren (names : List String) (r : DomainData) : DomainData :=
  { r with subdomains := r.subdomains ++ childrenToAdd names r }

theorem linkChildren_nil (r : DomainData) : linkChildren [] r = r := by
  simp [linkChildren, childrenToAdd]

theorem childrenToAdd_append (names1 names2 : List String) (r : DomainData) :
    childrenToAdd (names1 ++ names2) r
      = childrenToAdd names1 r ++ childrenToAdd names2 r := by
  simp [childrenToAdd, List.filter_append]

theorem childrenToAdd_sub (names : List String) (r : DomainData) :
    ∀ n ∈ childrenToAdd names r, n ∈ names := by
  intro n h
  exact (List.mem_filter.mp h).1

theorem map_linkChildren_names (ds : List DomainData) (P : List String) :
    (ds.map (linkChildren P)).map DomainData.name = ds.map DomainData.name := by
  rw [List.map_map]
  apply List.map_congr_left
  intro r _
  rfl

theorem nodup_names_inj (ds : List DomainData) (hnd : (ds.map DomainData.name).Nodup)
    (r1 r2 : DomainData) (h1 : r1 ∈ ds) (h2 : r2 ∈ ds) (he : r1.name = r2.name) :
    r1 = r2 := by
  obtain ⟨i1, hi1⟩ := List.mem_iff_get.mp h1
  obtain ⟨i2, hi2⟩ := List.mem_iff_get.mp h2
  have hi1e : ds[i1.1] = r1 := by rw [← List.get_eq_getElem]; exact hi1
  have hi2e : ds[i2.1] = r2 := by rw [← List.get_eq_getElem]; exact hi2
  have hn1 : (ds.map DomainData.name).get ⟨i1.1, by simpa using i1.2⟩ = r1.name := by
    simp only [List.get_eq_getElem, List.getElem_map, hi1e]
  have hn2 : (ds.map DomainData.name).get ⟨i2.1, by simpa using i2.2⟩ = r2.name := by
    simp only [List.get_eq_getElem, List.getElem_map, hi2e]
  have hfin : (⟨i1.1, by simpa using i1.2⟩ : Fin (ds.map DomainData.name).length)
      = ⟨i2.1, by simpa using i2.2⟩ := by
    rw [← List.Nodup.get_inj_iff hnd, hn1, hn2]
    exact he
  have hi : i1.1 = i2.1 := by
    simpa using congrArg Fin.val hfin
  rw [← hi1, ← hi2]
  congr 1
  exact Fin.ext hi

theorem lastIdxWithName_none (ds : List DomainData) (n : String) :
    lastIdxWithName ds n = none ↔ ∀ d ∈ ds, d.name ≠ n := by
  induction ds with
  | nil => simp [lastIdxWithName]
  | cons d rest ih =>
    rw [lastIdxWithName]
    cases h : lastIdxWithName rest n with
    | some j =>
      dsimp only
      constructor
      · intro hcon
        exact absurd hcon (by simp)
      · intro hall
        have h2 : lastIdxWithName rest n = none :=
          ih.mpr (fun d2 hd2 => hall d2 (List.mem_cons_of_mem _ hd2))
        rw [h] at h2
        exact absurd h2 (by simp)
    | none =>
      dsimp only
      by_cases hd : d.name = n
      · rw [if_pos hd]
        constructor
        · intro hcon
          exact absurd hcon (by simp)
        · intro hall
          exact absurd hd (hall d (List.mem_cons_self d rest))
      · rw [if_neg hd]
        constructor
        · intro _ d2 hd2
          rcases List.mem_cons.mp hd2 with h2 | h2
          · rw [h2]
            exact hd
          · exact ih.mp h d2 h2
        · intro _
          rfl

theorem lastIdxWithName_some (ds : List DomainData) (n : String) :
    ∀ j, lastIdxWithName ds n = some j →
      ∃ hj : j < ds.length, (ds.get ⟨j, hj⟩).name = n := by
  induction ds with
  | nil =>
    intro j h
    exact absurd h (by simp [lastIdxWithName])
  | cons d rest ih =>
    intro j h
    rw [lastIdxWithName] at h
    cases h2 : lastIdxWithName rest n with
    | some j2 =>
      rw [h2] at h
      obtain ⟨hj2, hname⟩ := ih j2 h2
      have hj : j = j2 + 1 := by
        simpa using h.symm
      subst hj
      exact ⟨by simpa using Nat.succ_lt_succ hj2, by simpa using hname⟩
    | none =>
      rw [h2] at h
      by_cases hd : d.name = n
      · rw [if_pos hd] at h
        have hj : j = 0 := by simpa using h.symm
        subst hj
        exact ⟨by simp, hd⟩
      · rw [if_neg hd] at h
        exact absurd h (by simp)

theorem childrenToAdd_single (n : String) (r : DomainData)
    (h1 : 1 < (splitDot n).length) (h2 : parentName n = r.name)
    (h3 : ¬ n ∈ r.subdomains) :
    childrenToAdd [n] r = [n] := by
  simp [childrenToAdd, h1, h2, h3]

theorem childrenToAdd_single_nil (n : String) (r : DomainData)
    (h : ¬ (1 < (splitDot n).length ∧ parentName n = r.name ∧ ¬ n ∈ r.subdomains)) :
    childrenToAdd [n] r = [] := by
  simp only [childrenToAdd, List.filter_cons, List.filter_nil]
  rw [if_neg (by simpa using h)]

theorem names_get_ne (ds : List DomainData) (hnd : (ds.map DomainData.name).Nodup)
    (k j : Nat) (hk : k < ds.length) (hj : j < ds.length) (hne : k ≠ j) :
    (ds.get ⟨k, hk⟩).name ≠ (ds.get ⟨j, hj⟩).name := by
  intro he
  have h1 : (ds.map DomainData.name).get ⟨k, by simpa using hk⟩
      = (ds.map DomainData.name).get ⟨j, by simpa using hj⟩ := by
    simp only [List.get_eq_getElem, List.getElem_map]
    exact he
  rw [List.Nodup.get_inj_iff hnd] at h1
  exact hne (by simpa using congrArg Fin.val h1)

/-- One step of the relationship loop, on a state where the names in `P`
have already been processed: processing a fresh name `n` moves the state to
the one where `P ++ [n]` has been processed. -/
theorem buildStep_linked (ds : List DomainData) (P : List String) (n : String)
    (hnd : (ds.map DomainData.name).Nodup) (hnP : ¬ n ∈ P) :
    buildStep (ds.map (linkChildren P)) n = ds.map (linkChildren (P ++ [n])) := by
  have hsame : (∀ r ∈ ds, childrenToAdd [n] r = []) →
      ds.map (linkChildren (P ++ [n])) = ds.map (linkChildren P) := by
    intro hnil
    apply List.map_congr_left
    intro r hr
    rw [linkChildren, linkChildren, childrenToAdd_append, hnil r hr, List.append_nil]
  by_cases hdot : 1 < (splitDot n).length
  · rw [buildStep, if_pos hdot, linkChild]
    cases hlook : lastIdxWithName (ds.map (linkChildren P)) (parentName n) with
    | none =>
      have hnone := (lastIdxWithName_none _ _).mp hlook
      refine (hsame ?_).symm
      intro r hr
      have hrname : r.name ≠ parentName n := by
        have hmem : linkChildren P r ∈ ds.map (linkChildren P) :=
          List.mem_map_of_mem _ hr
        have h2 := hnone _ hmem
        simpa [linkChildren] using h2
      apply childrenToAdd_single_nil
      rintro ⟨-, hB, -⟩
      exact hrname (hB.symm)
    | some j =>
      obtain ⟨hj, hname⟩ := lastIdxWithName_some _ _ j hlook
      have hj2 : j < ds.length := by simpa using hj
      have hgetj : (ds.map (linkChildren P)).get ⟨j, hj⟩
          = linkChildren P (ds.get ⟨j, hj2⟩) := by
        simp [List.get_eq_getElem, List.getElem_map]
      have hpname : (ds.get ⟨j, hj2⟩).name = parentName n := by
        rw [hgetj] at hname
        simpa [linkChildren] using hname
      dsimp only
      rw [List.get?_eq_get hj, hgetj]
      dsimp only
      by_cases hguard : n ∈ (linkChildren P (ds.get ⟨j, hj2⟩)).subdomains
      · rw [if_pos hguard]
        have horig : n ∈ (ds.get ⟨j, hj2⟩).subdomains := by
          rcases List.mem_append.mp (by simpa [linkChildren] using hguard) with h | h
          · exact h
          · exact absurd (childrenToAdd_sub P _ n h) hnP
        refine (hsame ?_).symm
        intro r hr
        apply childrenToAdd_single_nil
        rintro ⟨-, hB, hC⟩
        have hrj : r = ds.get ⟨j, hj2⟩ := by
          refine nodup_names_inj ds hnd r _ hr (List.get_mem ds j hj2) ?_
          rw [← hB, hpname]
        exact hC (hrj ▸ horig)
      · rw [if_neg hguard]
        have hnsub : ¬ n ∈ (ds.get ⟨j, hj2⟩).subdomains := by
          intro hcon
          refine hguard ?_
          simp only [linkChildren]
          exact List.mem_append_left _ hcon
        apply List.ext_get
        · simp
        · intro k h1 h2
          have hk : k < ds.length := by simpa using h2
          simp only [List.get_eq_getElem]
          by_cases hkj : k = j
          · subst hkj
            rw [List.getElem_set_eq (by simpa using hj), List.getElem_map]
            show _ = linkChildren (P ++ [n]) (ds.get ⟨k, hk⟩)
            rw [linkChildren, linkChildren, childrenToAdd_append,
              childrenToAdd_single n _ hdot hpname.symm hnsub]
            simp [linkChildren, List.append_assoc]
          · rw [List.getElem_set_ne (by omega), List.getElem_map, List.getElem_map]
            show linkChildren P (ds.get ⟨k, hk⟩) = linkChildren (P ++ [n]) (ds.get ⟨k, hk⟩)
            rw [linkChildren, linkChildren, childrenToAdd_append,
              childrenToAdd_single_nil n _ ?_, List.append_nil]
            rintro ⟨-, hB, -⟩
            exact names_get_ne ds hnd k j hk hj2 hkj (by rw [← hB, hpname])
  · rw [buildStep, if_neg hdot]
    refine (hsame ?_).symm
    intro r hr
    apply childrenToAdd_single_nil
    rintro ⟨hA, -, -⟩
    exact hdot hA

/-- Folding the relationship step over the still-pending names completes the
pass: every name ends up processed. -/
theorem foldl_buildStep_linked (ds : List DomainData)
    (hnd : (ds.map DomainData.name).Nodup) :
    ∀ (pending P : List String), P ++ pending = ds.map DomainData.name →
      List.foldl buildStep (ds.map (linkChildren P)) pending
        = ds.map (linkChildren (ds.map DomainData.name)) := by
  intro pending
  induction pending with
  | nil =>
    intro P hsplit
    rw [List.append_nil] at hsplit
    rw [List.foldl_nil, hsplit]
  | cons n pending2 ih =>
    intro P hsplit
    have hnodup2 : (P ++ n :: pending2).Nodup := by
      rw [hsplit]
      exact hnd
    have hnP : ¬ n ∈ P := by
      obtain ⟨-, -, hdisj⟩ := List.nodup_append.mp hnodup2
      intro hcon
      exact hdisj hcon (List.mem_cons_self n pending2)
    rw [List.foldl_cons, buildStep_linked ds P n hnd hnP]
    exact ih (P ++ [n]) (by rw [List.append_assoc]; simpa using hsplit)

/-- C6: on a record list with unique names, the relationship builder sends
each record `r` to `r` with `r.subdomains` extended, in input (retrieval)
order, by exactly those input names that split into several labels, whose
parent name (first label removed) is `r.name`, and that `r` does not already
list; records whose parent name is absent contribute to nobody (they stay
unlinked) and the pass is total — no error is possible. -/
theorem buildSubdomainRelations_spec (ds : List DomainData)
    (hnd : (ds.map DomainData.name).Nodup) :
    buildSubdomainRelations ds = ds.map (linkChildren (ds.map DomainData.name)) := by
  have h0 : ds.map (linkChildren []) = ds := by
    have hpt : ∀ r ∈ ds, linkChildren [] r = id r := fun r _ => linkChildren_nil r
    rw [List.map_congr_left hpt, List.map_id]
  rw [buildSubdomainRelations]
  nth_rewrite 1 [← h0]
  exact foldl_buildStep_linked ds hnd (ds.map DomainData.name) [] (List.nil_append _)

/-- Linking is projection-stable: running the per-record linking a second
time over the same name sequence adds nothing, because every candidate child
is already listed. -/
theorem linkChildren_idem (names : List String) (r : DomainData) :
    linkChildren names (linkChildren names r) = linkChildren names r := by
  have hnil : childrenToAdd names (linkChildren names r) = [] := by
    simp only [childrenToAdd]
    rw [List.filter_eq_nil_iff]
    intro a ha
    simp only [decide_eq_true_eq]
    rintro ⟨h1, h2, h3⟩
    apply h3
    have h2r : parentName a = r.name := by
      simpa [linkChildren] using h2
    simp only [linkChildren]
    by_cases hin : a ∈ r.subdomains
    · exact List.mem_append_left _ hin
    · refine List.mem_append_right _ ?_
      simp only [childrenToAdd]
      rw [List.mem_filter]
      exact ⟨ha, by simp [h1, h2r, hin]⟩
  rw [linkChildren, hnil, List.append_nil]

/-- C7: the relationship builder is idempotent on a record list with unique
names — a second run on its own output changes no `subdomains` list, because
of the membership guard before each append. -/
theorem buildSubdomainRelations_idem (ds : List DomainData)
    (hnd : (ds.map DomainData.name).Nodup) :
    buildSubdomainRelations (buildSubdomainRelations ds) = buildSubdomainRelations ds := by
  have h1 := buildSubdomainRelations_spec ds hnd
  have hnames : (buildSubdomainRelations ds).map DomainData.name = ds.map DomainData.name := by
    rw [h1, map_linkChildren_names]
  have h2 := buildSubdomainRelations_spec (buildSubdomainRelations ds)
    (by rw [hnames]; exact hnd)
  rw [h2, hnames, h1, List.map_map]
  apply List.map_congr_left
  intro r _
  exact linkChildren_idem (ds.map DomainData.name) r

/-- The record set used by the relationship-builder witnesses: `"a.b"`'s
parent (first label removed) is `"b"`, `"c.a.b"`'s parent is `"a.b"`, and
`"x.y"`'s parent `"y"` is absent, so `"x.y"` stays unlinked. -/
def relExample : List DomainData :=
  [ ⟨"1", "b", "", "", true, "o", []⟩,
    ⟨"2", "a.b", "", "", true, "o", []⟩,
    ⟨"3", "c.a.b", "", "", false, "o", []⟩,
    ⟨"4", "x.y", "", "", false, "o", []⟩ ]

/-- C6 witness: four uniquely named records, one orphan. -/
theorem buildSubdomainRelations_spec_witness :
    (relExample.map DomainData.name).Nodup ∧
    buildSubdomainRelations relExample
      = relExample.map (linkChildren (relExample.map DomainData.name)) :=
  ⟨by decide, buildSubdomainRelations_spec relExample (by decide)⟩

/-- C7 witness: a second pass over the already-linked example is the
identity. -/
theorem buildSubdomainRelations_idem_witness :
    (relExample.map DomainData.name).Nodup ∧
    buildSubdomainRelations (buildSubdomainRelations relExample)
      = buildSubdomainRelations relExample :=
  ⟨by decide, buildSubdomainRelations_idem relExample (by decide)⟩

end DIDIndexer
